import Mathlib

/-!
Verification of the `backscanner` package: a reverse-direction line scanner
over a random-access byte source.

The embedding below models the Go source faithfully:
* bytes are `Nat` values (`'\n' = 10`, `'\r' = 13`), byte slices are `List Nat`;
* Go `int` is `Int`;
* the `io.ReaderAt` the scanner reads from is modelled as a function from the
  requested byte count and the absolute offset to the delivered bytes together
  with an optional error (`strings.Reader`-style exact readers are
  `exactReader`); the Go code stores the reader in the `Scanner` struct, the
  model passes it as an explicit argument so that the scanner state stays a
  first-order, decidable value;
* the scratch slice `buf2` of the Go code is a pure allocation optimization
  whose content is never observable (it is fully overwritten before any use on
  a conforming reader); it is therefore not part of the model state.  The one
  behaviorally relevant aspect of the `buf2` handling is that reslicing or
  allocating it with a negative length panics in Go; the model returns
  `Abort.sliceBounds` there;
* Go's unbounded `for` loop in `LineBytes` is modelled with explicit fuel;
  `Abort.fuelOut` marks fuel exhaustion (with validated options the fuel
  provided by `LineBytes` is always sufficient, which the lemmas below prove;
  with a non-positive chunk size the Go loop does not terminate either).
-/

namespace Backscanner

/-- Errors observable from the scanner: `io.EOF`, `ErrLongLine`, and any other
error propagated from the underlying reader (tagged by a code). -/
inductive Err where
  | eof
  | longLine
  | other (code : Nat)
deriving DecidableEq

/-- Result of one `ReadAt` call: the delivered bytes and an optional error.
The Go `n` return value is `data.length`. -/
structure ReadResult where
  data : List Nat
  err : Option Err
deriving DecidableEq

/-- A random-access reader: given a requested byte count and an absolute
offset, deliver bytes and an optional error (the `io.ReaderAt` shape). -/
def Reader : Type := Nat → Int → ReadResult

/-- The reader backed by a fixed byte sequence, with `strings.Reader.ReadAt`
semantics: negative offsets are an error; an offset at or past the end reports
`io.EOF`; otherwise the available bytes are delivered and `io.EOF` is reported
exactly when fewer bytes than requested were available. -/
def exactReader (input : List Nat) : Reader := fun size off =>
  if off < 0 then { data := [], err := some (.other 0) }
  else if (input.length : Int) ≤ off then { data := [], err := some .eof }
  else
    let data := (input.drop off.toNat).take size
    { data := data, err := if data.length = size then none else some .eof }

/-- `DefaultChunkSize` from the source. -/
def DefaultChunkSize : Int := 1024

/-- `DefaultMaxBufferSize` from the source (1 MB). -/
def DefaultMaxBufferSize : Int := 1 <<< 20

/-- The `Options` struct. -/
structure Options where
  chunkSize : Int
  maxBufferSize : Int
deriving DecidableEq

/-- The `Scanner` struct: position of the last read chunk, options in effect,
the latched error, and the read-but-not-yet-returned buffer. -/
structure Scanner where
  pos : Int
  chunkSize : Int
  maxBufferSize : Int
  err : Option Err
  buf : List Nat
deriving DecidableEq

/-- `NewOptions`: non-positive (or absent) option values are replaced by the
defaults, mirroring the two `if o != nil && o.X > 0` checks of the source. -/
def NewOptions (pos : Int) (o : Option Options) : Scanner :=
  { pos := pos
    chunkSize :=
      match o with
      | some oo => if 0 < oo.chunkSize then oo.chunkSize else DefaultChunkSize
      | none => DefaultChunkSize
    maxBufferSize :=
      match o with
      | some oo => if 0 < oo.maxBufferSize then oo.maxBufferSize else DefaultMaxBufferSize
      | none => DefaultMaxBufferSize
    err := none
    buf := [] }

/-- `New` is `NewOptions` with no options. -/
def New (pos : Int) : Scanner := NewOptions pos none

/-- `bytes.LastIndexByte`: index of the last occurrence of `b`, or `-1`. -/
def lastIndexByte : List Nat → Nat → Int
  | [], _ => -1
  | a :: as, b =>
    let r := lastIndexByte as b
    if 0 ≤ r then r + 1
    else if a = b then 0 else -1

/-- `dropCR`: drop a terminal `'\r'` from the data. -/
def dropCR (data : List Nat) : List Nat :=
  if data.getLast? = some 13 then data.dropLast else data

/-- Ways the model can abort: a Go slice-bounds panic (reslicing the scratch
buffer with a negative length), or fuel exhaustion of the modelled loop. -/
inductive Abort where
  | sliceBounds
  | fuelOut
deriving DecidableEq

deriving instance DecidableEq for Except

/-- `readMore`: read one more chunk from the input, prepending it to the
buffer.  Mirrors the source line by line: the `pos == 0` check, the fetch-size
clamp, the cursor decrement, the max-buffer-size check (before any read), and
the `ReadAt` call whose `io.EOF` is suppressed when the requested count was
fully delivered.  A negative fetch size would make Go panic when sizing the
scratch buffer, modelled as `Abort.sliceBounds`. -/
def readMore (r : Reader) (s : Scanner) : Except Abort Scanner :=
  if s.pos = 0 then .ok { s with err := some .eof }
  else
    let size := if s.chunkSize > s.pos then s.pos else s.chunkSize
    let pos := s.pos - size
    let bufSize := size + (s.buf.length : Int)
    if bufSize > s.maxBufferSize then .ok { s with pos := pos, err := some .longLine }
    else if size < 0 then .error .sliceBounds
    else
      let res := r size.toNat pos
      let e := if res.err = some .eof ∧ res.data.length = size.toNat then none else res.err
      match e with
      | none => .ok { s with pos := pos, buf := res.data ++ s.buf, err := none }
      | some e0 => .ok { s with pos := pos, err := some e0 }

/-- The body of `LineBytes`'s `for` loop, with explicit fuel: search the buffer
for the rightmost `'\n'`; on success cut the line (with `dropCR`) and report
`s.pos + lineStart + 1`; otherwise read more, returning the remaining buffer as
the final line at position 0 when `io.EOF` hits with a non-empty buffer. -/
def lineBytesLoop (r : Reader) : Nat → Scanner → Except Abort (List Nat × Int × Option Err × Scanner)
  | 0, _ => .error .fuelOut
  | fuel + 1, s =>
    let lineStart := lastIndexByte s.buf 10
    if 0 ≤ lineStart then
      let line := dropCR (s.buf.drop (lineStart.toNat + 1))
      .ok (line, s.pos + lineStart + 1, none, { s with buf := s.buf.take lineStart.toNat })
    else
      match readMore r s with
      | .error a => .error a
      | .ok s' =>
        match s'.err with
        | some e =>
          if e = .eof ∧ 0 < s'.buf.length then
            .ok (dropCR s'.buf, 0, none, s')
          else
            .ok ([], 0, some e, s')
        | none => lineBytesLoop r fuel s'

/-- `LineBytes`: returns the next line (previous in the source), its absolute
position, the error, and the updated scanner.  A latched error is returned
immediately with an empty line and position 0, without touching the reader. -/
def LineBytes (r : Reader) (s : Scanner) : Except Abort (List Nat × Int × Option Err × Scanner) :=
  match s.err with
  | some e => .ok ([], 0, some e, s)
  | none => lineBytesLoop r (s.pos.toNat + 1) s

/-- `Line` performs the identical algorithm and converts the bytes to a Go
string; on byte sequences that conversion is the identity, so the model
returns the same value. -/
def Line (r : Reader) (s : Scanner) : Except Abort (List Nat × Int × Option Err × Scanner) :=
  LineBytes r s

/-- Iterate `LineBytes` exactly `k` times, collecting every `(line, pos, err)`
triple together with the final scanner state. -/
def runCalls (r : Reader) : Nat → Scanner → Except Abort (List (List Nat × Int × Option Err) × Scanner)
  | 0, s => .ok ([], s)
  | k + 1, s =>
    match LineBytes r s with
    | .error a => .error a
    | .ok (l, p, e, s') =>
      match runCalls r k s' with
      | .error a => .error a
      | .ok (rest, sf) => .ok ((l, p, e) :: rest, sf)

/-- Iterate `LineBytes` until the first error emission (at most `fuel` calls),
collecting the successful `(line, pos)` pairs, the terminating error, and the
final scanner state. -/
def runLines (r : Reader) : Nat → Scanner → Except Abort (List (List Nat × Int) × Err × Scanner)
  | 0, _ => .error .fuelOut
  | fuel + 1, s =>
    match LineBytes r s with
    | .error a => .error a
    | .ok (_, _, some e, s') => .ok ([], e, s')
    | .ok (l, p, none, s') =>
      match runLines r fuel s' with
      | .error a => .error a
      | .ok (rest, e, sf) => .ok ((l, p) :: rest, e, sf)

/-- The successful `(line, pos)` pairs and the terminating error of a scan,
with the final state discarded. -/
def runPairs (r : Reader) (fuel : Nat) (s : Scanner) : Except Abort (List (List Nat × Int) × Err) :=
  (runLines r fuel s).map (fun t => (t.1, t.2.1))

/-! ## Slices of the input

`slice l a b` is the contiguous region `l[a:b]`, the shape in which chunks and
buffers relate to the underlying input. -/

/-- The contiguous byte region `[a, b)` of `l`. -/
def slice (l : List Nat) (a b : Nat) : List Nat := (l.drop a).take (b - a)

theorem slice_zero (l : List Nat) (b : Nat) : slice l 0 b = l.take b := by
  simp [slice]

theorem slice_self (l : List Nat) (a : Nat) : slice l a a = [] := by
  simp [slice]

theorem length_slice (l : List Nat) {a b : Nat} (hab : a ≤ b) (hb : b ≤ l.length) :
    (slice l a b).length = b - a := by
  simp only [slice, List.length_take, List.length_drop]
  omega

theorem take_add_slice (l : List Nat) {a b : Nat} (hab : a ≤ b) :
    l.take a ++ slice l a b = l.take b := by
  rw [show b = a + (b - a) by omega, List.take_add, slice]
  congr 2
  omega

theorem slice_append (l : List Nat) {a b c : Nat} (hab : a ≤ b) (hbc : b ≤ c) :
    slice l a b ++ slice l b c = slice l a c := by
  unfold slice
  rw [show c - a = (b - a) + (c - b) by omega, List.take_add, List.drop_drop]
  congr 3
  omega

theorem slice_drop (l : List Nat) (a b k : Nat) :
    (slice l a b).drop k = slice l (a + k) b := by
  unfold slice
  rw [List.drop_take, List.drop_drop]
  congr 1
  omega

theorem slice_take (l : List Nat) {a b k : Nat} (hk : k ≤ b - a) :
    (slice l a b).take k = slice l a (a + k) := by
  unfold slice
  rw [List.take_take]
  congr 1
  omega

/-! ## Last newline position -/

/-- Position of the last `'\n'` byte, if any. -/
def lastNl : List Nat → Option Nat
  | [] => none
  | a :: as =>
    match lastNl as with
    | some j => some (j + 1)
    | none => if a = 10 then some 0 else none

theorem lastIndexByte_none {l : List Nat} (h : lastNl l = none) : lastIndexByte l 10 = -1 := by
  induction l with
  | nil => rfl
  | cons a as ih =>
    simp only [lastNl] at h
    cases h' : lastNl as with
    | some j => rw [h'] at h; simp at h
    | none =>
      rw [h'] at h
      by_cases ha : a = 10
      · simp [ha] at h
      · simp [lastIndexByte, ih h', ha]

theorem lastIndexByte_some {l : List Nat} {j : Nat} (h : lastNl l = some j) :
    lastIndexByte l 10 = (j : Int) := by
  induction l generalizing j with
  | nil => simp [lastNl] at h
  | cons a as ih =>
    simp only [lastNl] at h
    cases h' : lastNl as with
    | some j' =>
      rw [h'] at h
      simp only [Option.some.injEq] at h
      subst h
      simp only [lastIndexByte, ih h']
      have : (0 : Int) ≤ (j' : Int) := Int.ofNat_nonneg j'
      simp only [this, if_pos]
      push_cast
      omega
    | none =>
      rw [h'] at h
      by_cases ha : a = 10
      · have hj : j = 0 := by
          rw [ha] at h
          simpa using h.symm
        subst hj
        simp [lastIndexByte, lastIndexByte_none h', ha]
      · simp [ha] at h

theorem lastNl_lt {l : List Nat} {j : Nat} (h : lastNl l = some j) : j < l.length := by
  induction l generalizing j with
  | nil => simp [lastNl] at h
  | cons a as ih =>
    simp only [lastNl] at h
    cases h' : lastNl as with
    | some j' =>
      rw [h'] at h
      have := ih h'
      simp only [Option.some.injEq] at h
      simp [List.length_cons]
      omega
    | none =>
      rw [h'] at h
      by_cases ha : a = 10
      · simp [ha] at h
        simp [← h]
      · simp [ha] at h

theorem lastNl_append_some {v : List Nat} {j : Nat} (h : lastNl v = some j) (u : List Nat) :
    lastNl (u ++ v) = some (u.length + j) := by
  induction u with
  | nil => simpa using h
  | cons a u ih =>
    rw [show (a :: u) ++ v = a :: (u ++ v) from rfl]
    simp only [lastNl, ih]
    simp only [Option.some.injEq, List.length_cons]
    omega

theorem lastNl_append_none {v : List Nat} (h : lastNl v = none) (u : List Nat) :
    lastNl (u ++ v) = lastNl u := by
  induction u with
  | nil => simpa using h
  | cons a u ih =>
    rw [show (a :: u) ++ v = a :: (u ++ v) from rfl]
    simp only [lastNl, ih]

theorem lastNl_none_of_mem {l : List Nat} (h : ∀ x ∈ l, x ≠ 10) : lastNl l = none := by
  induction l with
  | nil => rfl
  | cons a as ih =>
    have ha : a ≠ 10 := h a (by simp)
    have has : lastNl as = none := ih (fun x hx => h x (by simp [hx]))
    simp [lastNl, has, ha]

theorem lastNl_decomp {l : List Nat} {j : Nat} (h : lastNl l = some j) :
    l = l.take j ++ 10 :: l.drop (j + 1) ∧ lastNl (l.drop (j + 1)) = none := by
  induction l generalizing j with
  | nil => simp [lastNl] at h
  | cons a as ih =>
    simp only [lastNl] at h
    cases h' : lastNl as with
    | some j' =>
      rw [h'] at h
      simp only [Option.some.injEq] at h
      subst h
      obtain ⟨h1, h2⟩ := ih h'
      exact ⟨congrArg (a :: ·) h1, h2⟩
    | none =>
      rw [h'] at h
      by_cases ha : a = 10
      · have hj : j = 0 := by
          rw [ha] at h
          simpa using h.symm
        subst hj
        exact ⟨by rw [ha]; simp, h'⟩
      · simp [ha] at h

/-! ## Forward line splitting (the specification side) -/

/-- Forward splitting on `'\n'`, as `strings.Split(input, "\n")` would do:
always at least one part, the separators not included. -/
def splitNl : List Nat → List (List Nat)
  | [] => [[]]
  | a :: as =>
    let r := splitNl as
    if a = 10 then [] :: r
    else
      match r with
      | [] => [[a]]
      | l :: ls => (a :: l) :: ls

theorem splitNl_ne_nil (l : List Nat) : splitNl l ≠ [] := by
  cases l with
  | nil => simp [splitNl]
  | cons a as =>
    simp only [splitNl]
    by_cases ha : a = 10
    · simp [ha]
    · simp only [ha, if_neg, ite_false]
      cases splitNl as <;> simp

theorem splitNl_noNl {v : List Nat} (h : lastNl v = none) : splitNl v = [v] := by
  induction v with
  | nil => rfl
  | cons a as ih =>
    simp only [lastNl] at h
    cases h' : lastNl as with
    | some j' => rw [h'] at h; simp at h
    | none =>
      rw [h'] at h
      by_cases ha : a = 10
      · simp [ha] at h
      · simp [splitNl, ha, ih h']

theorem splitNl_sep {v : List Nat} (h : lastNl v = none) :
    ∀ w, splitNl (w ++ 10 :: v) = splitNl w ++ [v] := by
  intro w
  induction w with
  | nil => simp [splitNl, splitNl_noNl h]
  | cons a w ih =>
    rw [show (a :: w) ++ 10 :: v = a :: (w ++ 10 :: v) from rfl]
    simp only [splitNl]
    rw [ih]
    by_cases ha : a = 10
    · simp [ha]
    · simp only [ha, ite_false]
      cases hs : splitNl w with
      | nil => exact absurd hs (splitNl_ne_nil w)
      | cons p rest => simp

/-- The number of input bytes a run of parts accounts for, counting one
separator per part. -/
def weight : List (List Nat) → Int
  | [] => 0
  | p :: ps => (p.length : Int) + 1 + weight ps

theorem weight_splitNl (w : List Nat) : weight (splitNl w) = (w.length : Int) + 1 := by
  induction w with
  | nil => simp [splitNl, weight]
  | cons a as ih =>
    simp only [splitNl]
    by_cases ha : a = 10
    · simp only [ha, if_pos rfl, weight, ih, List.length_cons, List.length_nil]
      push_cast
      ring_nf
    · simp only [ha, ite_false]
      cases hs : splitNl as with
      | nil => exact absurd hs (splitNl_ne_nil as)
      | cons p rest =>
        rw [hs] at ih
        simp only [weight] at ih ⊢
        simp only [List.length_cons]
        push_cast at ih ⊢
        omega

/-- Annotate each part with the absolute offset of its first content byte:
each step advances past the part and the one separator that follows it. -/
def partsWithOffsets (off : Int) : List (List Nat) → List (List Nat × Int)
  | [] => []
  | p :: ps => (p, off) :: partsWithOffsets (off + (p.length : Int) + 1) ps

theorem pwo_append (xs : List (List Nat)) :
    ∀ (off : Int) (ys : List (List Nat)),
      partsWithOffsets off (xs ++ ys) =
        partsWithOffsets off xs ++ partsWithOffsets (off + weight xs) ys := by
  induction xs with
  | nil => intro off ys; simp [partsWithOffsets, weight]
  | cons p xs ih =>
    intro off ys
    have hw : off + weight (p :: xs) = off + (p.length : Int) + 1 + weight xs := by
      simp only [weight]; ring_nf
    rw [show (p :: xs) ++ ys = p :: (xs ++ ys) from rfl]
    simp only [partsWithOffsets, List.cons_append]
    rw [ih, hw]

theorem pwo_fst (off : Int) (xs : List (List Nat)) :
    (partsWithOffsets off xs).map Prod.fst = xs := by
  induction xs generalizing off with
  | nil => rfl
  | cons p xs ih => simp [partsWithOffsets, ih]

/-- The `(line, position)` pairs the scanner emits for a source prefix, in
emission (reverse) order: every part after the first is emitted with its
content offset, and the first (earliest) part is emitted last, at position 0,
unless it is empty. -/
def pairsOf (u : List Nat) : List (List Nat × Int) :=
  match partsWithOffsets 0 (splitNl u) with
  | [] => []
  | q :: rest =>
    (rest.map (fun t => (dropCR t.1, t.2))).reverse ++
      (if q.1 = [] then [] else [(dropCR q.1, 0)])

theorem pairsOf_step {u : List Nat} {j : Nat} (h : lastNl u = some j) :
    pairsOf u = (dropCR (u.drop (j + 1)), (j : Int) + 1) :: pairsOf (u.take j) := by
  obtain ⟨hdec, hnone⟩ := lastNl_decomp h
  have hlen : (u.take j).length = j := by
    have := lastNl_lt h
    simp [List.length_take]
    omega
  have hsplit : splitNl u = splitNl (u.take j) ++ [u.drop (j + 1)] := by
    conv_lhs => rw [hdec]
    exact splitNl_sep hnone (u.take j)
  obtain ⟨p, rest, hp⟩ := List.exists_cons_of_ne_nil (splitNl_ne_nil (u.take j))
  have hpw : partsWithOffsets 0 (splitNl u) =
      (p, 0) :: (partsWithOffsets (0 + (p.length : Int) + 1) rest ++
        [(u.drop (j + 1), (j : Int) + 1)]) := by
    rw [hsplit, pwo_append, hp]
    simp only [partsWithOffsets, List.cons_append, List.append_nil]
    congr 3
    rw [← hp, weight_splitNl, hlen]
    ring_nf
  simp only [pairsOf, hpw, hp, partsWithOffsets]
  simp [List.map_append, List.reverse_append]

theorem pairsOf_noNl {u : List Nat} (h : lastNl u = none) :
    pairsOf u = if u = [] then [] else [(dropCR u, 0)] := by
  simp [pairsOf, splitNl_noNl h, partsWithOffsets]

/-! ## The scanner state invariant

Between public fetch calls a live scanner's buffer is exactly the region
`[c, e)` of the input: `c` is the cursor, `e` the least offset not yet
returned. -/

/-- The scanner state with cursor `c`, buffer holding the input region
`[c, e)`, and latched error `er`. -/
def mkSt (input : List Nat) (cs M : Int) (c e : Nat) (er : Option Err) : Scanner :=
  { pos := (c : Int), chunkSize := cs, maxBufferSize := M, err := er, buf := slice input c e }

theorem readMore_pos_zero (r : Reader) (s : Scanner) (h : s.pos = 0) :
    readMore r s = .ok { s with err := some .eof } := by
  simp [readMore, h]

theorem readMore_slice_aux (input : List Nat) {cs M sz : Int} {c e : Nat}
    (hif : (if cs > (c : Int) then (c : Int) else cs) = sz)
    (hsz1 : 1 ≤ sz) (hszc : sz ≤ (c : Int)) (hce : c ≤ e) (he : e ≤ input.length)
    (hnb : ¬(sz + ((e - c : Nat) : Int) > M)) :
    readMore (exactReader input) (mkSt input cs M c e none) =
      .ok (mkSt input cs M (c - sz.toNat) e none) := by
  have hbuflen : (slice input c e).length = e - c := length_slice input hce he
  have hoffn : ((c : Int) - sz).toNat = c - sz.toNat := by omega
  have hdata : ((input.drop ((c : Int) - sz).toNat).take sz.toNat).length = sz.toNat := by
    simp only [List.length_take, List.length_drop, hoffn]
    omega
  simp only [readMore, mkSt, exactReader]
  rw [hif]
  rw [if_neg (show ¬((c : Int) = 0) by omega)]
  rw [if_neg (show ¬(sz + ((slice input c e).length : Int) > M) by
    rw [hbuflen]; exact hnb)]
  rw [if_neg (show ¬(sz < 0) by omega)]
  rw [if_neg (show ¬((c : Int) - sz < 0) by omega)]
  rw [if_neg (show ¬((input.length : Int) ≤ (c : Int) - sz) by omega)]
  simp only [hdata, if_pos rfl]
  simp only [if_true, reduceCtorEq, false_and, if_false, Except.ok.injEq, Scanner.mk.injEq]
  refine ⟨by omega, trivial, trivial, trivial, ?_⟩
  rw [hoffn]
  have h1 : (input.drop (c - sz.toNat)).take sz.toNat = slice input (c - sz.toNat) c := by
    unfold slice
    congr 1
    omega
  rw [h1]
  exact slice_append input (by omega) hce

theorem readMore_slice (input : List Nat) {cs M : Int} {c e : Nat}
    (hcs : 1 ≤ cs) (hc : 1 ≤ c) (hce : c ≤ e) (he : e ≤ input.length)
    (hM : (e : Int) ≤ M) :
    ∃ c2, c2 < c ∧
      readMore (exactReader input) (mkSt input cs M c e none) =
        .ok (mkSt input cs M c2 e none) := by
  by_cases hcase : cs > (c : Int)
  · refine ⟨c - ((c : Int)).toNat, by omega, ?_⟩
    exact readMore_slice_aux input (if_pos hcase) (by omega) (by omega) hce he (by omega)
  · refine ⟨c - cs.toNat, by omega, ?_⟩
    exact readMore_slice_aux input (if_neg hcase) hcs (by omega) hce he (by omega)

theorem loop_inv (input : List Nat) {cs M : Int} (hcs : 1 ≤ cs) :
    ∀ fuel c e, c ≤ e → e ≤ input.length → (e : Int) ≤ M → c < fuel →
      (match lastNl (input.take e) with
       | some j =>
         ∃ c', c' ≤ j ∧ c' ≤ c ∧
           lineBytesLoop (exactReader input) fuel (mkSt input cs M c e none) =
             .ok (dropCR (slice input (j + 1) e), (j : Int) + 1, none,
               mkSt input cs M c' j none)
       | none =>
         lineBytesLoop (exactReader input) fuel (mkSt input cs M c e none) =
           (if e = 0 then .ok ([], 0, some .eof, mkSt input cs M 0 0 (some .eof))
            else .ok (dropCR (input.take e), 0, none, mkSt input cs M 0 e (some .eof)))) := by
  intro fuel
  induction fuel with
  | zero => intro c e _ _ _ hlt; exact absurd hlt (Nat.not_lt_zero c)
  | succ fuel ih =>
    intro c e hce he hM hfuel
    have hcl : c ≤ input.length := le_trans hce he
    have htksplit : input.take c ++ slice input c e = input.take e := take_add_slice input hce
    have htclen : (input.take c).length = c := by simp [List.length_take]; omega
    cases hbuf : lastNl (slice input c e) with
    | some jr =>
      have hjr : jr < e - c := by
        have := lastNl_lt hbuf
        rwa [length_slice input hce he] at this
      have hglob : lastNl (input.take e) = some (c + jr) := by
        rw [← htksplit, lastNl_append_some hbuf, htclen]
      rw [hglob]
      refine ⟨c, by omega, le_refl c, ?_⟩
      simp only [lineBytesLoop, mkSt]
      rw [lastIndexByte_some hbuf]
      rw [if_pos (Int.ofNat_nonneg jr)]
      simp only [Int.toNat_natCast]
      have hdrop : (slice input c e).drop (jr + 1) = slice input (c + jr + 1) e := by
        rw [slice_drop, show c + (jr + 1) = c + jr + 1 from rfl]
      have htake : (slice input c e).take jr = slice input c (c + jr) := by
        exact slice_take input (by omega)
      rw [hdrop, htake]
      norm_cast
    | none =>
      have hglob : lastNl (input.take e) = lastNl (input.take c) := by
        rw [← htksplit, lastNl_append_none hbuf]
      simp only [lineBytesLoop]
      rw [show (mkSt input cs M c e none).buf = slice input c e from rfl]
      rw [lastIndexByte_none hbuf]
      rw [if_neg (show ¬((0 : Int) ≤ -1) by omega)]
      by_cases hc : c = 0
      · subst hc
        have hnone : lastNl (input.take e) = none := by
          rw [hglob]
          simp [lastNl]
        cases hg : lastNl (input.take e) with
        | some j => rw [hg] at hnone; exact absurd hnone (by simp)
        | none =>
          simp only [readMore_pos_zero (exactReader input) (mkSt input cs M 0 e none)
            (show (mkSt input cs M 0 e none).pos = 0 by simp [mkSt])]
          by_cases he0 : e = 0
          · subst he0
            simp [mkSt, slice, dropCR]
          · rw [if_neg he0]
            have hlen : 0 < ((mkSt input cs M 0 e none).buf).length := by
              simp only [mkSt]
              rw [length_slice input (Nat.zero_le e) he]
              omega
            rw [if_pos ⟨trivial, hlen⟩]
            simp [mkSt, slice_zero]
      · obtain ⟨c2, hc2lt, hread⟩ := readMore_slice input hcs (by omega) hce he hM
        rw [hread]
        have hrec := ih c2 e (by omega) he hM (by omega)
        cases hg : lastNl (input.take e) with
        | some j =>
          rw [hg] at hrec
          obtain ⟨c', h1, h2, heq⟩ := hrec
          refine ⟨c', h1, by omega, ?_⟩
          exact heq
        | none =>
          rw [hg] at hrec
          exact hrec


/-- One public fetch call from a live invariant state: if the input prefix
`[0, e)` still holds a separator at last position `j`, the line `[j+1, e)` is
emitted at position `j + 1` and the state stays live with `e' = j`; otherwise
the remaining prefix (if non-empty) is emitted at position 0 and the `io.EOF`
state latches. -/
theorem LineBytes_inv (input : List Nat) {cs M : Int} (hcs : 1 ≤ cs) {c e : Nat}
    (hce : c ≤ e) (he : e ≤ input.length) (hM : (e : Int) ≤ M) :
    (match lastNl (input.take e) with
     | some j =>
       ∃ c', c' ≤ j ∧ c' ≤ c ∧
         LineBytes (exactReader input) (mkSt input cs M c e none) =
           .ok (dropCR (slice input (j + 1) e), (j : Int) + 1, none,
             mkSt input cs M c' j none)
     | none =>
       LineBytes (exactReader input) (mkSt input cs M c e none) =
         (if e = 0 then .ok ([], 0, some .eof, mkSt input cs M 0 0 (some .eof))
          else .ok (dropCR (input.take e), 0, none, mkSt input cs M 0 e (some .eof)))) := by
  have hLB : LineBytes (exactReader input) (mkSt input cs M c e none) =
      lineBytesLoop (exactReader input) (c + 1) (mkSt input cs M c e none) := by
    simp [LineBytes, mkSt]
  have := loop_inv input hcs (c + 1) c e hce he hM (by omega)
  cases hg : lastNl (input.take e) with
  | some j =>
    rw [hg] at this
    obtain ⟨c', h1, h2, heq⟩ := this
    exact ⟨c', h1, h2, by rw [hLB]; exact heq⟩
  | none =>
    rw [hg] at this
    rw [hLB]
    exact this


theorem LineBytes_latched (r : Reader) (s : Scanner) {er : Err} (h : s.err = some er) :
    LineBytes r s = .ok ([], 0, some er, s) := by
  simp [LineBytes, h]

theorem runLines_latched (r : Reader) {s : Scanner} {er : Err} (h : s.err = some er) :
    ∀ fuel, 1 ≤ fuel → runLines r fuel s = .ok ([], er, s) := by
  intro fuel h1
  cases fuel with
  | zero => omega
  | succ fuel => simp [runLines, LineBytes_latched r s h]

theorem take_drop_slice (input : List Nat) (k e : Nat) :
    (input.take e).drop k = slice input k e := by
  unfold slice
  rw [List.drop_take]

theorem take_take_self (input : List Nat) {j e : Nat} (hje : j ≤ e) :
    (input.take e).take j = input.take j := by
  rw [List.take_take]
  congr 1
  omega

theorem runLines_inv (input : List Nat) {cs M : Int} (hcs : 1 ≤ cs) :
    ∀ fuel c e, c ≤ e → e ≤ input.length → (e : Int) ≤ M → e + 2 ≤ fuel →
      ∃ sf, runLines (exactReader input) fuel (mkSt input cs M c e none) =
        .ok (pairsOf (input.take e), .eof, sf) := by
  intro fuel
  induction fuel with
  | zero => intro c e _ _ _ h; omega
  | succ fuel ih =>
    intro c e hce he hM hfuel
    have hcall := LineBytes_inv input hcs hce he hM
    cases hg : lastNl (input.take e) with
    | some j =>
      rw [hg] at hcall
      obtain ⟨c', h1, h2, heq⟩ := hcall
      have hjlt : j < e := by
        have h3 := lastNl_lt hg
        have h4 : (input.take e).length ≤ e := by simp [List.length_take]
        omega
      have hjl : j ≤ input.length := by omega
      have hjM : (j : Int) ≤ M := by omega
      have hjf : j + 2 ≤ fuel := by omega
      obtain ⟨sf, hrec⟩ := ih c' j h1 hjl hjM hjf
      refine ⟨sf, ?_⟩
      simp only [runLines, heq, hrec]
      rw [pairsOf_step hg, take_drop_slice, take_take_self input (by omega : j ≤ e)]
    | none =>
      rw [hg] at hcall
      by_cases he0 : e = 0
      · subst he0
        rw [if_pos rfl] at hcall
        refine ⟨mkSt input cs M 0 0 (some .eof), ?_⟩
        simp only [runLines, hcall]
        have hp : pairsOf (input.take 0) = [] := by rfl
        rw [hp]
      · rw [if_neg he0] at hcall
        refine ⟨mkSt input cs M 0 e (some .eof), ?_⟩
        simp only [runLines, hcall]
        rw [runLines_latched _ (show (mkSt input cs M 0 e (some .eof)).err = some .eof from rfl)
          fuel (by omega)]
        rw [pairsOf_noNl hg,
          if_neg (show ¬(input.take e = []) by
            intro hnil
            have hl := congrArg List.length hnil
            rw [List.length_take] at hl
            simp only [List.length_nil] at hl
            omega)]


/-- Iterate `LineBytes` exactly `k` times, collecting only the emitted
`(line, pos, err)` triples (the observable behavior of `k` fetch calls). -/
def runEms (r : Reader) : Nat → Scanner → Except Abort (List (List Nat × Int × Option Err))
  | 0, _ => .ok []
  | k + 1, s =>
    match LineBytes r s with
    | .error a => .error a
    | .ok (l, p, e, s') => (runEms r k s').map (fun rest => (l, p, e) :: rest)

theorem runEms_latched (r : Reader) {s : Scanner} {er : Err} (h : s.err = some er) :
    ∀ k, runEms r k s = .ok (List.replicate k ([], 0, some er)) := by
  intro k
  induction k with
  | zero => rfl
  | succ k ih => simp [runEms, LineBytes_latched r s h, ih, List.replicate_succ, Except.map]

theorem runCalls_latched (r : Reader) {s : Scanner} {er : Err} (h : s.err = some er) :
    ∀ k, runCalls r k s = .ok (List.replicate k ([], 0, some er), s) := by
  intro k
  induction k with
  | zero => rfl
  | succ k ih => simp [runCalls, LineBytes_latched r s h, ih, List.replicate_succ]

/-! ## Specification-side descriptions of a full backward scan -/

/-- The claim-side notion of the input's lines: forward maximal runs between
separators and source boundaries, each with its trailing carriage return
removed, in reverse order of forward appearance. -/
def revLines (u : List Nat) : List (List Nat) :=
  ((splitNl u).map dropCR).reverse

/-- The lines the scanner actually emits on a full scan: `revLines`, except
that an empty earliest line is never emitted (the exhaustion branch of
`LineBytes` requires a non-empty buffer). -/
def emittedLines (u : List Nat) : List (List Nat) :=
  if (splitNl u).head? = some [] then (revLines u).dropLast else revLines u

/-- The positions the scanner reports on a full scan: every line after the
earliest at the offset of its first content byte (one past its preceding
separator, as accumulated by `partsWithOffsets`), and the line emitted at
exhaustion (present exactly when the earliest forward line is non-empty) at
position 0. -/
def contentOffsets (u : List Nat) : List Int :=
  match partsWithOffsets 0 (splitNl u) with
  | [] => []
  | q :: rest =>
    (rest.map (fun t => t.2)).reverse ++ (if q.1 = [] then [] else [(0 : Int)])

theorem pairsOf_fst (u : List Nat) : (pairsOf u).map Prod.fst = emittedLines u := by
  obtain ⟨p, rest, hp⟩ := List.exists_cons_of_ne_nil (splitNl_ne_nil u)
  simp only [pairsOf, emittedLines, revLines, hp, partsWithOffsets, List.head?_cons,
    Option.some.injEq]
  rw [List.map_append, List.map_reverse, List.map_map]
  have hfst : ((partsWithOffsets (0 + (p.length : Int) + 1) rest).map
      (Prod.fst ∘ fun t => (dropCR t.1, t.2))) = rest.map dropCR := by
    have : (Prod.fst ∘ fun t : List Nat × Int => (dropCR t.1, t.2)) =
        (dropCR ∘ Prod.fst) := rfl
    rw [this, ← List.map_map, pwo_fst]
  rw [hfst]
  by_cases hpe : p = []
  · rw [if_pos hpe, if_pos hpe]
    simp [List.map_cons, List.reverse_cons, hpe]
  · rw [if_neg hpe, if_neg hpe]
    simp [List.map_cons, List.reverse_cons]

theorem pairsOf_snd (u : List Nat) : (pairsOf u).map Prod.snd = contentOffsets u := by
  obtain ⟨p, rest, hp⟩ := List.exists_cons_of_ne_nil (splitNl_ne_nil u)
  simp only [pairsOf, contentOffsets, hp, partsWithOffsets]
  rw [List.map_append, List.map_reverse, List.map_map]
  have hsnd : (Prod.snd ∘ fun t : List Nat × Int => (dropCR t.1, t.2)) =
      (fun t : List Nat × Int => t.2) := rfl
  rw [hsnd]
  by_cases hpe : p = []
  · rw [if_pos hpe, if_pos hpe]
    simp
  · rw [if_neg hpe, if_neg hpe]
    simp

/-- A freshly constructed scanner with validated positive options, started at
offset `n ≤ input.length`, is the invariant state with `c = e = n` (its buffer
is empty). -/
theorem NewOptions_eq_mkSt (input : List Nat) {cs M : Int} (hcs : 0 < cs) (hM : 0 < M)
    (n : Nat) :
    NewOptions (n : Int) (some { chunkSize := cs, maxBufferSize := M }) =
      mkSt input cs M n n none := by
  simp [NewOptions, mkSt, if_pos hcs, if_pos hM, slice_self]

/-- A full scan from offset `input.length` with validated options and a
non-binding buffer cap emits exactly `pairsOf input` and terminates with
`io.EOF`. -/
theorem scan_full (input : List Nat) {cs M : Int} (hcs : 0 < cs) (hM0 : 0 < M)
    (hM : (input.length : Int) ≤ M) :
    ∃ sf, runLines (exactReader input) (input.length + 2)
        (NewOptions (input.length : Int) (some { chunkSize := cs, maxBufferSize := M })) =
      .ok (pairsOf input, .eof, sf) := by
  rw [NewOptions_eq_mkSt input hcs hM0 input.length]
  have h1 : (1 : Int) ≤ cs := by omega
  obtain ⟨sf, h⟩ := runLines_inv input h1 (input.length + 2) input.length input.length
    (le_refl _) (le_refl _) hM (by omega)
  rw [List.take_length] at h
  exact ⟨sf, h⟩


/-! ## Concrete test vectors -/

/-- The bytes of `"Start\nLine1\nLine2\nLine3\nEnd"` (length 27). -/
def testInput : List Nat :=
  [83, 116, 97, 114, 116, 10, 76, 105, 110, 101, 49, 10, 76, 105, 110, 101, 50, 10,
   76, 105, 110, 101, 51, 10, 69, 110, 100]

/-- The `(line, position)` pairs the code actually produces on `testInput`,
matching the repository's current test. -/
def testPairsCode : List (List Nat × Int) :=
  [([69, 110, 100], 24), ([76, 105, 110, 101, 51], 18), ([76, 105, 110, 101, 50], 12),
   ([76, 105, 110, 101, 49], 6), ([83, 116, 97, 114, 116], 0)]

/-- The `(line, position)` pairs the specification's concrete scenario claims. -/
def testPairsSpec : List (List Nat × Int) :=
  [([69, 110, 100], 23), ([76, 105, 110, 101, 51], 17), ([76, 105, 110, 101, 50], 11),
   ([76, 105, 110, 101, 49], 5), ([83, 116, 97, 114, 116], 0)]

/-! ## C1 -/

/-- C1, counterexample: for the input `"\na"` (bytes `[10, 97]`) scanned from
its full length 2, the successful fetches return only the line `"a"` (at
position 1) before end-of-source, whereas the input's lines in reverse order
are `["a", ""]`: the empty earliest line is never returned, so the claim as
stated fails. -/
theorem c1_cex :
    runPairs (exactReader [10, 97]) 4 (New 2) = .ok ([([97], 1)], .eof) ∧
    revLines [10, 97] = [[97], []] ∧
    [([97], (1 : Int))].map Prod.fst ≠ revLines [10, 97] := by decide

/-- C1 (amended): for every input and a scanner constructed over it with
starting offset equal to the input's length, validated positive options, and a
maximum buffer size at least the input's length, the sequence of successful
`LineBytes()`/`Line()` fetches returns exactly the input's lines (maximal runs
between `'\n'` separators and source boundaries) in reverse order of their
forward appearance, each with a single trailing `'\r'` removed — except that
an empty earliest line (an input that is empty or begins with a separator) is
not returned, the end-of-source status being reported instead; the run then
terminates with end-of-source. -/
theorem c1_reverse_lines (input : List Nat) (cs M : Int) (hcs : 0 < cs) (hM0 : 0 < M)
    (hM : (input.length : Int) ≤ M) :
    ∃ pairs sf,
      runLines (exactReader input) (input.length + 2)
        (NewOptions (input.length : Int) (some { chunkSize := cs, maxBufferSize := M })) =
        .ok (pairs, .eof, sf) ∧
      pairs.map Prod.fst = emittedLines input := by
  obtain ⟨sf, h⟩ := scan_full input hcs hM0 hM
  exact ⟨pairsOf input, sf, h, pairsOf_fst input⟩

/-- C1, witness: the amended theorem applied to the input `"a\nb"` with chunk
size 1 and maximum buffer size 10. -/
theorem c1_reverse_lines_witness :
    (0 : Int) < 1 ∧ (0 : Int) < 10 ∧ ((([97, 10, 98] : List Nat).length : Int) ≤ 10) ∧
    (∃ pairs sf,
      runLines (exactReader [97, 10, 98]) (([97, 10, 98] : List Nat).length + 2)
        (NewOptions ((([97, 10, 98] : List Nat).length : Int))
          (some { chunkSize := 1, maxBufferSize := 10 })) = .ok (pairs, .eof, sf) ∧
      pairs.map Prod.fst = emittedLines [97, 10, 98]) :=
  ⟨by decide, by decide, by decide,
    c1_reverse_lines [97, 10, 98] 1 10 (by decide) (by decide) (by decide)⟩

/-! ## C2 -/

/-- C2, counterexample: for the input `"\na"` scanned from its full length,
the final (and only) successfully returned line is `"a"` with reported
position 1, not 0 — when the earliest line of the input is empty, no line is
emitted through the exhaustion branch, and the last returned line keeps its
true content offset. -/
theorem c2_cex :
    runPairs (exactReader [10, 97]) 4 (New 2) = .ok ([([97], 1)], .eof) ∧
    (1 : Int) ≠ 0 := by decide

/-- C2 (amended): on a full scan (validated options, non-binding cap), every
line returned through the separator branch is reported at the absolute offset
of its first content byte (one past the consumed separator), and the line
returned at exhaustion — present exactly when the earliest forward line is
non-empty — is reported at position 0: the position sequence is
`contentOffsets input`. -/
theorem c2_positions (input : List Nat) (cs M : Int) (hcs : 0 < cs) (hM0 : 0 < M)
    (hM : (input.length : Int) ≤ M) :
    ∃ pairs sf,
      runLines (exactReader input) (input.length + 2)
        (NewOptions (input.length : Int) (some { chunkSize := cs, maxBufferSize := M })) =
        .ok (pairs, .eof, sf) ∧
      pairs.map Prod.snd = contentOffsets input := by
  obtain ⟨sf, h⟩ := scan_full input hcs hM0 hM
  exact ⟨pairsOf input, sf, h, pairsOf_snd input⟩

/-- C2, witness: the amended theorem applied to the input `"a\r\nb"` with
chunk size 2 and maximum buffer size 100. -/
theorem c2_positions_witness :
    (0 : Int) < 2 ∧ (0 : Int) < 100 ∧ ((([97, 13, 10, 98] : List Nat).length : Int) ≤ 100) ∧
    (∃ pairs sf,
      runLines (exactReader [97, 13, 10, 98]) (([97, 13, 10, 98] : List Nat).length + 2)
        (NewOptions ((([97, 13, 10, 98] : List Nat).length : Int))
          (some { chunkSize := 2, maxBufferSize := 100 })) = .ok (pairs, .eof, sf) ∧
      pairs.map Prod.snd = contentOffsets [97, 13, 10, 98]) :=
  ⟨by decide, by decide, by decide,
    c2_positions [97, 13, 10, 98] 2 100 (by decide) (by decide) (by decide)⟩

/-! ## C3 -/

/-- C3, counterexample: on `"Start\nLine1\nLine2\nLine3\nEnd"` (length 27)
scanned from offset 27 with default options, the code produces the pairs with
positions 24, 18, 12, 6, 0 (as the repository's current test expects), which
differ from the claimed positions 23, 17, 11, 5, 0. -/
theorem c3_cex :
    runPairs (exactReader testInput) 8 (New 27) = .ok (testPairsCode, .eof) ∧
    testPairsCode ≠ testPairsSpec := by decide

/-- C3 (amended): for the input `"Start\nLine1\nLine2\nLine3\nEnd"` (length
27) and a scanner started at offset 27, sequential fetches return exactly
`("End", 24)`, `("Line3", 18)`, `("Line2", 12)`, `("Line1", 6)`,
`("Start", 0)`, and then the end-of-source status. -/
theorem c3_scenario :
    runPairs (exactReader testInput) 8 (New 27) = .ok (testPairsCode, .eof) := by decide


/-! ## C4 -/

/-- C4: once the scanner has latched any terminal error (end-of-source,
size-exceeded, or a propagated read error), every subsequent `LineBytes()` or
`Line()` call returns that same error with an empty line and position 0, the
state never changes, and no read is performed: the result of any number of
further calls is independent of the reader. -/
theorem c4_terminal_latch (r r2 : Reader) (s : Scanner) (er : Err) (h : s.err = some er)
    (k : Nat) :
    runCalls r k s = .ok (List.replicate k ([], 0, some er), s) ∧
    runCalls r k s = runCalls r2 k s := by
  refine ⟨runCalls_latched r h k, ?_⟩
  rw [runCalls_latched r h k, runCalls_latched r2 h k]

/-- C4, witness: a scanner latched on `io.EOF` keeps returning it, over two
calls, for two different readers. -/
theorem c4_terminal_latch_witness :
    (Scanner.err ⟨3, 1024, 100, some .eof, [72]⟩ = some .eof) ∧
    (runCalls (exactReader [1, 2]) 2 ⟨3, 1024, 100, some .eof, [72]⟩ =
        .ok (List.replicate 2 ([], 0, some .eof), ⟨3, 1024, 100, some .eof, [72]⟩) ∧
      runCalls (exactReader [1, 2]) 2 ⟨3, 1024, 100, some .eof, [72]⟩ =
        runCalls (exactReader [9]) 2 ⟨3, 1024, 100, some .eof, [72]⟩) :=
  ⟨rfl, c4_terminal_latch (exactReader [1, 2]) (exactReader [9])
    ⟨3, 1024, 100, some .eof, [72]⟩ .eof rfl 2⟩

/-! ## C8 -/

/-- C8: at construction, an absent options struct or a non-positive chunk
size / maximum buffer size falls back to the defaults — 1024 bytes for the
chunk size and 1048576 bytes (1 MiB) for the maximum buffer size — while
caller-supplied positive values are kept; the starting position is stored as
given, with no latched error and an empty buffer. -/
theorem c8_defaults :
    DefaultChunkSize = 1024 ∧ DefaultMaxBufferSize = 1048576 ∧
    (∀ p : Int, New p =
      { pos := p, chunkSize := DefaultChunkSize, maxBufferSize := DefaultMaxBufferSize,
        err := none, buf := [] }) ∧
    (∀ (p : Int) (o : Options), NewOptions p (some o) =
      { pos := p,
        chunkSize := if 0 < o.chunkSize then o.chunkSize else DefaultChunkSize,
        maxBufferSize := if 0 < o.maxBufferSize then o.maxBufferSize else DefaultMaxBufferSize,
        err := none, buf := [] }) :=
  ⟨by decide, by decide, fun _ => rfl, fun _ _ => rfl⟩

/-! ## C6 -/

/-- C6: when the underlying read returns the end-of-source signal but
delivered exactly the requested byte count, `readMore` suppresses the signal
and treats the read as a normal success, prepending the bytes to the buffer;
any other read error — including a short read with end-of-source — is latched
as the scanner's error without touching the buffer. -/
theorem c6_eof_suppress (r : Reader) (s : Scanner) (data : List Nat) (er : Err)
    (hpos : ¬s.pos = 0)
    (hnb : ¬((if s.chunkSize > s.pos then s.pos else s.chunkSize) + (s.buf.length : Int) >
      s.maxBufferSize))
    (hsz : ¬((if s.chunkSize > s.pos then s.pos else s.chunkSize) < 0)) :
    (r (if s.chunkSize > s.pos then s.pos else s.chunkSize).toNat
        (s.pos - (if s.chunkSize > s.pos then s.pos else s.chunkSize)) =
        { data := data, err := some .eof } →
      data.length = (if s.chunkSize > s.pos then s.pos else s.chunkSize).toNat →
      readMore r s = .ok { s with
        pos := s.pos - (if s.chunkSize > s.pos then s.pos else s.chunkSize),
        buf := data ++ s.buf, err := none }) ∧
    (r (if s.chunkSize > s.pos then s.pos else s.chunkSize).toNat
        (s.pos - (if s.chunkSize > s.pos then s.pos else s.chunkSize)) =
        { data := data, err := some er } →
      (er = .eof → ¬data.length = (if s.chunkSize > s.pos then s.pos else s.chunkSize).toNat) →
      readMore r s = .ok { s with
        pos := s.pos - (if s.chunkSize > s.pos then s.pos else s.chunkSize),
        err := some er }) := by
  constructor
  · intro hr hn
    simp only [readMore]
    rw [if_neg hpos, if_neg hnb, if_neg hsz, hr]
    simp [hn]
  · intro hr hcond
    have hcnd : ¬(er = Err.eof ∧
        data.length = (if s.chunkSize > s.pos then s.pos else s.chunkSize).toNat) := by
      rintro ⟨h1, h2⟩
      exact hcond h1 h2
    simp only [readMore]
    rw [if_neg hpos, if_neg hnb, if_neg hsz, hr]
    simp [hcnd]

/-- C6, witness: a reader that fully satisfies a 1-byte request while
signalling end-of-source is treated as a success; a reader that fails with a
non-EOF error has that error latched. -/
theorem c6_eof_suppress_witness :
    readMore (fun _ _ => ⟨[7], some .eof⟩) ⟨1, 1, 100, none, [3]⟩ =
      .ok ⟨0, 1, 100, none, [7, 3]⟩ ∧
    readMore (fun _ _ => ⟨[], some (.other 5)⟩) ⟨1, 1, 100, none, [3]⟩ =
      .ok ⟨0, 1, 100, some (.other 5), [3]⟩ :=
  ⟨(c6_eof_suppress (fun _ _ => ⟨[7], some .eof⟩) ⟨1, 1, 100, none, [3]⟩ [7] .eof
      (by decide) (by decide) (by decide)).1 rfl (by decide),
   (c6_eof_suppress (fun _ _ => ⟨[], some (.other 5)⟩) ⟨1, 1, 100, none, [3]⟩ [] (.other 5)
      (by decide) (by decide) (by decide)).2 rfl (by decide)⟩

/-! ## C5 -/

/-- `readMore` signals `ErrLongLine` (with the cursor already decremented)
whenever the prospective buffer size exceeds the cap, without consulting the
reader. -/
theorem readMore_longline (r : Reader) (s : Scanner) (hpos : ¬s.pos = 0)
    (hbig : (if s.chunkSize > s.pos then s.pos else s.chunkSize) + (s.buf.length : Int) >
      s.maxBufferSize) :
    readMore r s = .ok { s with
      pos := s.pos - (if s.chunkSize > s.pos then s.pos else s.chunkSize),
      err := some .longLine } := by
  simp only [readMore]
  rw [if_neg hpos, if_pos hbig]


theorem loop_longline (input : List Nat) {cs M : Int} (hcs : 1 ≤ cs)
    (hnl : ∀ b ∈ input, b ≠ 10) (hM : M < (input.length : Int)) :
    ∀ fuel c, 1 ≤ c → c ≤ input.length → c < fuel →
      ∃ sf, lineBytesLoop (exactReader input) fuel (mkSt input cs M c input.length none) =
        .ok ([], 0, some .longLine, sf) := by
  intro fuel
  induction fuel with
  | zero => intro c _ _ h; exact absurd h (Nat.not_lt_zero c)
  | succ fuel ih =>
    intro c hc hcl hfuel
    have hbufnl : lastNl (slice input c input.length) = none := by
      apply lastNl_none_of_mem
      intro b hb
      exact hnl b (List.drop_subset c input (List.take_subset _ _ hb))
    have hbuflen : (slice input c input.length).length = input.length - c :=
      length_slice input hcl (le_refl _)
    simp only [lineBytesLoop]
    rw [show (mkSt input cs M c input.length none).buf = slice input c input.length from rfl]
    rw [lastIndexByte_none hbufnl]
    rw [if_neg (show ¬((0 : Int) ≤ -1) by omega)]
    by_cases hcase : cs > (c : Int)
    · have hbig : (if (mkSt input cs M c input.length none).chunkSize >
          (mkSt input cs M c input.length none).pos then (mkSt input cs M c input.length none).pos
          else (mkSt input cs M c input.length none).chunkSize) +
          ((mkSt input cs M c input.length none).buf.length : Int) >
          (mkSt input cs M c input.length none).maxBufferSize := by
        show (if cs > (c : Int) then (c : Int) else cs) +
          ((slice input c input.length).length : Int) > M
        rw [if_pos hcase, hbuflen]
        omega
      rw [readMore_longline _ _ (show ¬(mkSt input cs M c input.length none).pos = 0 by
        show ¬((c : Int)) = 0
        omega) hbig]
      simp only [reduceCtorEq, false_and, if_false]
      exact ⟨_, rfl⟩
    · by_cases hbig2 : cs + ((input.length - c : Nat) : Int) > M
      · have hbig : (if (mkSt input cs M c input.length none).chunkSize >
            (mkSt input cs M c input.length none).pos then (mkSt input cs M c input.length none).pos
            else (mkSt input cs M c input.length none).chunkSize) +
            ((mkSt input cs M c input.length none).buf.length : Int) >
            (mkSt input cs M c input.length none).maxBufferSize := by
          show (if cs > (c : Int) then (c : Int) else cs) +
            ((slice input c input.length).length : Int) > M
          rw [if_neg hcase, hbuflen]
          exact hbig2
        rw [readMore_longline _ _ (show ¬(mkSt input cs M c input.length none).pos = 0 by
          show ¬((c : Int)) = 0
          omega) hbig]
        simp only [reduceCtorEq, false_and, if_false]
        exact ⟨_, rfl⟩
      · have hread := readMore_slice_aux input (if_neg hcase) hcs (by omega) hcl
          (le_refl _) hbig2
        rw [hread]
        have hc2 : 1 ≤ c - cs.toNat := by omega
        obtain ⟨sf, hrec⟩ := ih (c - cs.toNat) hc2 (by omega) (by omega)
        exact ⟨sf, hrec⟩

/-- C5: during a chunk fetch the prospective buffer size is the fetch size
(the minimum of the configured chunk size and the current cursor) plus the
current buffer length; when it exceeds the configured maximum buffer size the
scanner latches `ErrLongLine` (with the cursor already decremented) and
performs no read — the result is independent of the reader.  Consequently a
scanner over an input that is a single unterminated run of bytes longer than
the configured maximum returns the size-exceeded status instead of a line on
its first fetch. -/
theorem c5_long_line :
    (∀ (r r2 : Reader) (s : Scanner), ¬s.pos = 0 →
      (if s.chunkSize > s.pos then s.pos else s.chunkSize) + (s.buf.length : Int) >
          s.maxBufferSize →
      readMore r s = .ok { s with
        pos := s.pos - (if s.chunkSize > s.pos then s.pos else s.chunkSize),
        err := some .longLine } ∧
      readMore r s = readMore r2 s) ∧
    (∀ (input : List Nat) (cs M : Int), 0 < cs → 0 < M → M < (input.length : Int) →
      (∀ b ∈ input, b ≠ 10) →
      ∃ sf, LineBytes (exactReader input)
          (NewOptions (input.length : Int) (some { chunkSize := cs, maxBufferSize := M })) =
        .ok ([], 0, some .longLine, sf)) := by
  constructor
  · intro r r2 s hpos hbig
    refine ⟨readMore_longline r s hpos hbig, ?_⟩
    rw [readMore_longline r s hpos hbig, readMore_longline r2 s hpos hbig]
  · intro input cs M hcs hM0 hMlen hnl
    rw [NewOptions_eq_mkSt input hcs hM0 input.length]
    have hlen1 : 1 ≤ input.length := by omega
    have hLB : LineBytes (exactReader input)
        (mkSt input cs M input.length input.length none) =
        lineBytesLoop (exactReader input) (input.length + 1)
          (mkSt input cs M input.length input.length none) := by
      simp [LineBytes, mkSt]
    rw [hLB]
    exact loop_longline input (by omega) hnl hMlen (input.length + 1) input.length hlen1
      (le_refl _) (by omega)

/-- C5, witness: the fetch-level property at a concrete state whose
prospective buffer size 2 exceeds the cap 1, and the scan-level property on
the separator-free input `"ab"` with maximum buffer size 1. -/
theorem c5_long_line_witness :
    ((readMore (exactReader []) ⟨2, 1, 1, none, [5]⟩ = .ok ⟨1, 1, 1, some .longLine, [5]⟩) ∧
      readMore (exactReader []) ⟨2, 1, 1, none, [5]⟩ = readMore (exactReader [9]) ⟨2, 1, 1, none, [5]⟩) ∧
    (∃ sf, LineBytes (exactReader [97, 98])
        (NewOptions ((([97, 98] : List Nat).length : Int))
          (some { chunkSize := 1, maxBufferSize := 1 })) = .ok ([], 0, some .longLine, sf)) :=
  ⟨c5_long_line.1 (exactReader []) (exactReader [9]) ⟨2, 1, 1, none, [5]⟩ (by decide) (by decide),
   c5_long_line.2 [97, 98] 1 1 (by decide) (by decide) (by decide) (by decide)⟩


/-! ## C7 -/

/-- Two live invariant states over the same input with the same non-binding
cap but different positive chunk sizes (and possibly different cursors for the
same never-returned point `e`) produce identical emission sequences over any
number of fetch calls. -/
theorem runEms_chunk_bisim (input : List Nat) {cs1 cs2 M : Int} (h1 : 1 ≤ cs1) (h2 : 1 ≤ cs2) :
    ∀ k c1 c2 e, c1 ≤ e → c2 ≤ e → e ≤ input.length → (e : Int) ≤ M →
      runEms (exactReader input) k (mkSt input cs1 M c1 e none) =
        runEms (exactReader input) k (mkSt input cs2 M c2 e none) := by
  intro k
  induction k with
  | zero => intro c1 c2 e _ _ _ _; rfl
  | succ k ih =>
    intro c1 c2 e hc1 hc2 he hM
    have hA := LineBytes_inv input h1 hc1 he hM
    have hB := LineBytes_inv input h2 hc2 he hM
    cases hg : lastNl (input.take e) with
    | some j =>
      rw [hg] at hA hB
      obtain ⟨c1', hA1, _, heqA⟩ := hA
      obtain ⟨c2', hB1, _, heqB⟩ := hB
      have hjlt : j < e := by
        have h3 := lastNl_lt hg
        have h4 : (input.take e).length ≤ e := by simp [List.length_take]
        omega
      simp only [runEms, heqA, heqB]
      rw [ih c1' c2' j hA1 hB1 (by omega) (by omega)]
    | none =>
      rw [hg] at hA hB
      by_cases he0 : e = 0
      · subst he0
        rw [if_pos rfl] at hA hB
        simp only [runEms, hA, hB]
        rw [runEms_latched _ (show (mkSt input cs1 M 0 0 (some .eof)).err = some .eof from rfl) k,
          runEms_latched _ (show (mkSt input cs2 M 0 0 (some .eof)).err = some .eof from rfl) k]
      · rw [if_neg he0] at hA hB
        simp only [runEms, hA, hB]
        rw [runEms_latched _ (show (mkSt input cs1 M 0 e (some .eof)).err = some .eof from rfl) k,
          runEms_latched _ (show (mkSt input cs2 M 0 e (some .eof)).err = some .eof from rfl) k]

/-- C7, counterexample: over the input `"ab\ncd"` (length 5) with maximum
buffer size 3, a scanner with chunk size 5 reports `ErrLongLine` on its first
fetch (the single oversized chunk exceeds the cap before the separator is
seen), while a scanner with chunk size 1 returns the line `"cd"` at position 3
— so chunk size is observable when the buffer cap binds, refuting the claim
as stated. -/
theorem c7_cex :
    runEms (exactReader [97, 98, 10, 99, 100]) 1
        (NewOptions 5 (some { chunkSize := 5, maxBufferSize := 3 })) =
      .ok [([], 0, some .longLine)] ∧
    runEms (exactReader [97, 98, 10, 99, 100]) 1
        (NewOptions 5 (some { chunkSize := 1, maxBufferSize := 3 })) =
      .ok [([99, 100], 3, none)] ∧
    ¬(runEms (exactReader [97, 98, 10, 99, 100]) 1
        (NewOptions 5 (some { chunkSize := 5, maxBufferSize := 3 })) =
      runEms (exactReader [97, 98, 10, 99, 100]) 1
        (NewOptions 5 (some { chunkSize := 1, maxBufferSize := 3 }))) :=
  ⟨by decide, by decide, by decide⟩

/-- C7 (amended): for every input, every starting offset within the input,
and any two positive chunk-size configurations sharing a maximum buffer size
at least the input's length (so the cap never binds), the two scanners
produce identical sequences of `(line, position, status)` results across any
number of fetch calls. -/
theorem c7_chunk_independent (input : List Nat) (start : Nat) (cs1 cs2 M : Int) (k : Nat)
    (h1 : 0 < cs1) (h2 : 0 < cs2) (hM0 : 0 < M)
    (hstart : start ≤ input.length) (hM : (input.length : Int) ≤ M) :
    runEms (exactReader input) k
        (NewOptions (start : Int) (some { chunkSize := cs1, maxBufferSize := M })) =
      runEms (exactReader input) k
        (NewOptions (start : Int) (some { chunkSize := cs2, maxBufferSize := M })) := by
  rw [NewOptions_eq_mkSt input h1 hM0 start, NewOptions_eq_mkSt input h2 hM0 start]
  exact runEms_chunk_bisim input (by omega) (by omega) k start start start (le_refl _)
    (le_refl _) hstart (by omega)

/-- C7, witness: chunk sizes 1 and 2 over the input `"a\nb"` started at its
full length, compared over 4 fetch calls. -/
theorem c7_chunk_independent_witness :
    (0 : Int) < 1 ∧ (0 : Int) < 2 ∧ (([97, 10, 98] : List Nat).length ≤ 3) ∧
    runEms (exactReader [97, 10, 98]) 4
        (NewOptions ((3 : Nat) : Int) (some { chunkSize := 1, maxBufferSize := 10 })) =
      runEms (exactReader [97, 10, 98]) 4
        (NewOptions ((3 : Nat) : Int) (some { chunkSize := 2, maxBufferSize := 10 })) :=
  ⟨by decide, by decide, by decide,
    c7_chunk_independent [97, 10, 98] 3 1 2 10 4 (by decide) (by decide) (by decide)
      (by decide) (by decide)⟩


/-! ## C9 -/

/-- One public fetch appended at the end of a run. -/
theorem runCalls_snoc (r : Reader) : ∀ (k : Nat) (s : Scanner),
    runCalls r (k + 1) s =
      (match runCalls r k s with
       | .error a => .error a
       | .ok (ems, sf) =>
         match LineBytes r sf with
         | .error a => .error a
         | .ok (l, p, er, s2) => .ok (ems ++ [(l, p, er)], s2)) := by
  intro k
  induction k with
  | zero =>
    intro s
    cases h : LineBytes r s with
    | error a => simp [runCalls, h]
    | ok t =>
      obtain ⟨l, p, er, s2⟩ := t
      simp [runCalls, h]
  | succ k ih =>
    intro s
    cases h : LineBytes r s with
    | error a =>
      have hL : runCalls r (k + 1 + 1) s = .error a := by
        conv_lhs => rw [show runCalls r (k + 1 + 1) s =
          (match LineBytes r s with
           | Except.error a => Except.error a
           | Except.ok (l, p, e, s') =>
             match runCalls r (k + 1) s' with
             | Except.error a => Except.error a
             | Except.ok (rest, sf) => Except.ok ((l, p, e) :: rest, sf)) from rfl]
        rw [h]
      have hR : runCalls r (k + 1) s = .error a := by
        conv_lhs => rw [show runCalls r (k + 1) s =
          (match LineBytes r s with
           | Except.error a => Except.error a
           | Except.ok (l, p, e, s') =>
             match runCalls r k s' with
             | Except.error a => Except.error a
             | Except.ok (rest, sf) => Except.ok ((l, p, e) :: rest, sf)) from rfl]
        rw [h]
      rw [hL, hR]
    | ok t =>
      obtain ⟨l, p, er, s2⟩ := t
      have hL : runCalls r (k + 1 + 1) s =
          (match runCalls r (k + 1) s2 with
           | Except.error a => Except.error a
           | Except.ok (rest, sf) => Except.ok ((l, p, er) :: rest, sf)) := by
        conv_lhs => rw [show runCalls r (k + 1 + 1) s =
          (match LineBytes r s with
           | Except.error a => Except.error a
           | Except.ok (l, p, e, s') =>
             match runCalls r (k + 1) s' with
             | Except.error a => Except.error a
             | Except.ok (rest, sf) => Except.ok ((l, p, e) :: rest, sf)) from rfl]
        rw [h]
      have hR : runCalls r (k + 1) s =
          (match runCalls r k s2 with
           | Except.error a => Except.error a
           | Except.ok (rest, sf) => Except.ok ((l, p, er) :: rest, sf)) := by
        conv_lhs => rw [show runCalls r (k + 1) s =
          (match LineBytes r s with
           | Except.error a => Except.error a
           | Except.ok (l, p, e, s') =>
             match runCalls r k s' with
             | Except.error a => Except.error a
             | Except.ok (rest, sf) => Except.ok ((l, p, e) :: rest, sf)) from rfl]
        rw [h]
      rw [hL, ih s2, hR]
      cases h2 : runCalls r k s2 with
      | error a => rfl
      | ok u =>
        obtain ⟨ems, sf⟩ := u
        cases h3 : LineBytes r sf with
        | error a => simp [h3]
        | ok v =>
          obtain ⟨l2, p2, er2, s3⟩ := v
          simp [h3]

/-- The states reachable after some number of public fetches from a full-scan
start: either a latched terminal state with a bounded non-negative cursor, or
a live state `mkSt c e` whose already-emitted pairs are exactly the initial
segment of `pairsOf` that the region `[e, start)` accounts for. -/
def ReachSt (input : List Nat) (cs M : Int) (start : Nat)
    (ems : List (List Nat × Int × Option Err)) (s' : Scanner) : Prop :=
  ((∃ er, s'.err = some er) ∧ 0 ≤ s'.pos ∧ s'.pos ≤ (start : Int)) ∨
  (s'.err = none ∧ ∃ c e, c ≤ e ∧ e ≤ start ∧ s' = mkSt input cs M c e none ∧
    pairsOf (input.take start) =
      ems.map (fun t => (t.1, t.2.1)) ++ pairsOf (input.take e))

/-- `readMore` from a live invariant state with a positive cursor, with no
assumption on the buffer cap: either the prospective buffer size exceeds the
cap and `ErrLongLine` is latched with the cursor decremented by the clamped
fetch size, or the chunk is read and prepended. -/
theorem readMore_longline_aux (input : List Nat) {cs M sz : Int} {c e : Nat}
    (hif : (if cs > (c : Int) then (c : Int) else cs) = sz)
    (hc : 1 ≤ c) (hce : c ≤ e) (he : e ≤ input.length)
    (hbig : sz + ((e - c : Nat) : Int) > M) :
    readMore (exactReader input) (mkSt input cs M c e none) =
      .ok { mkSt input cs M c e none with pos := (c : Int) - sz, err := some .longLine } := by
  have hbuflen : (slice input c e).length = e - c := length_slice input hce he
  simp only [readMore, mkSt]
  rw [hif]
  rw [if_neg (show ¬((c : Int) = 0) by omega)]
  rw [if_pos (show sz + ((slice input c e).length : Int) > M by rw [hbuflen]; exact hbig)]

/-- Dichotomy for a chunk fetch from a live state, valid for any buffer cap:
either `ErrLongLine` is latched (cursor decremented but kept in `[0, c]`), or
the fetch succeeds and the state stays live with a strictly smaller cursor. -/
theorem readMore_cases (input : List Nat) {cs M : Int} {c e : Nat}
    (hcs : 1 ≤ cs) (hc : 1 ≤ c) (hce : c ≤ e) (he : e ≤ input.length) :
    (∃ s2, readMore (exactReader input) (mkSt input cs M c e none) = .ok s2 ∧
      s2.err = some .longLine ∧ 0 ≤ s2.pos ∧ s2.pos ≤ (c : Int)) ∨
    (∃ c2, c2 < c ∧ readMore (exactReader input) (mkSt input cs M c e none) =
      .ok (mkSt input cs M c2 e none)) := by
  by_cases hcase : cs > (c : Int)
  · by_cases hbig : (c : Int) + ((e - c : Nat) : Int) > M
    · left
      refine ⟨_, readMore_longline_aux input (if_pos hcase) hc hce he hbig, rfl, ?_, ?_⟩
      · show (0 : Int) ≤ (c : Int) - (c : Int)
        omega
      · show (c : Int) - (c : Int) ≤ (c : Int)
        omega
    · right
      refine ⟨c - ((c : Int)).toNat, by omega, ?_⟩
      exact readMore_slice_aux input (if_pos hcase) (by omega) (by omega) hce he hbig
  · by_cases hbig : cs + ((e - c : Nat) : Int) > M
    · left
      refine ⟨_, readMore_longline_aux input (if_neg hcase) hc hce he hbig, rfl, ?_, ?_⟩
      · show (0 : Int) ≤ (c : Int) - cs
        omega
      · show (c : Int) - cs ≤ (c : Int)
        omega
    · right
      refine ⟨c - cs.toNat, by omega, ?_⟩
      exact readMore_slice_aux input (if_neg hcase) hcs (by omega) hce he hbig

/-- One pass of the fetch loop from a live state, with no assumption on the
buffer cap: either the last separator of the prefix `[0, e)` is found and its
line is emitted with the state staying live at `e' = j`, or the call ends in a
latched terminal state whose cursor stays in `[0, c]`. -/
theorem loop_general (input : List Nat) {cs M : Int} (hcs : 1 ≤ cs) :
    ∀ fuel c e, c ≤ e → e ≤ input.length → c < fuel →
      ∃ l p er s2,
        lineBytesLoop (exactReader input) fuel (mkSt input cs M c e none) =
          .ok (l, p, er, s2) ∧
        ((∃ j c', lastNl (input.take e) = some j ∧ c' ≤ j ∧ c' ≤ c ∧
            l = dropCR (slice input (j + 1) e) ∧ p = (j : Int) + 1 ∧ er = none ∧
            s2 = mkSt input cs M c' j none) ∨
         ((∃ er2, s2.err = some er2) ∧ 0 ≤ s2.pos ∧ s2.pos ≤ (c : Int))) := by
  intro fuel
  induction fuel with
  | zero => intro c e _ _ h; exact absurd h (Nat.not_lt_zero c)
  | succ fuel ih =>
    intro c e hce he hfuel
    have hcl : c ≤ input.length := le_trans hce he
    have htksplit : input.take c ++ slice input c e = input.take e := take_add_slice input hce
    have htclen : (input.take c).length = c := by simp [List.length_take]; omega
    cases hbuf : lastNl (slice input c e) with
    | some jr =>
      have hjr : jr < e - c := by
        have := lastNl_lt hbuf
        rwa [length_slice input hce he] at this
      have hglob : lastNl (input.take e) = some (c + jr) := by
        rw [← htksplit, lastNl_append_some hbuf, htclen]
      have hdrop : (slice input c e).drop (jr + 1) = slice input (c + jr + 1) e := by
        rw [slice_drop, show c + (jr + 1) = c + jr + 1 from rfl]
      have htake : (slice input c e).take jr = slice input c (c + jr) :=
        slice_take input (by omega)
      refine ⟨dropCR (slice input (c + jr + 1) e), ((c + jr : Nat) : Int) + 1, none,
        mkSt input cs M c (c + jr) none, ?_,
        .inl ⟨c + jr, c, hglob, by omega, le_refl c, rfl, rfl, rfl, rfl⟩⟩
      simp only [lineBytesLoop, mkSt]
      rw [lastIndexByte_some hbuf]
      rw [if_pos (Int.ofNat_nonneg jr)]
      simp only [Int.toNat_natCast]
      rw [hdrop, htake]
      norm_cast
    | none =>
      simp only [lineBytesLoop]
      rw [show (mkSt input cs M c e none).buf = slice input c e from rfl]
      rw [lastIndexByte_none hbuf]
      rw [if_neg (show ¬((0 : Int) ≤ -1) by omega)]
      by_cases hc : c = 0
      · subst hc
        rw [readMore_pos_zero _ _ (show (mkSt input cs M 0 e none).pos = 0 by simp [mkSt])]
        by_cases hb : 0 < (slice input 0 e).length
        · refine ⟨dropCR (slice input 0 e), 0, none,
            { mkSt input cs M 0 e none with err := some Err.eof }, ?_,
            .inr ⟨⟨.eof, rfl⟩, le_refl _, le_refl _⟩⟩
          simp [mkSt, hb]
        · refine ⟨[], 0, some .eof,
            { mkSt input cs M 0 e none with err := some Err.eof }, ?_,
            .inr ⟨⟨.eof, rfl⟩, le_refl _, le_refl _⟩⟩
          simp [mkSt, hb]
      · rcases readMore_cases input hcs (by omega) hce he with
          ⟨s2, hread, herr2, hb1, hb2⟩ | ⟨c2, hc2, hread⟩
        · refine ⟨[], 0, some .longLine, s2, ?_, .inr ⟨⟨.longLine, herr2⟩, hb1, hb2⟩⟩
          rw [hread]
          simp [herr2]
        · rw [hread]
          obtain ⟨l, p, er, s2, hloop, hdisj⟩ := ih c2 e (by omega) he (by omega)
          refine ⟨l, p, er, s2, hloop, ?_⟩
          rcases hdisj with ⟨j, c', hg, h1, h2, h3, h4, h5, h6⟩ | ⟨he2, hb1, hb2⟩
          · exact .inl ⟨j, c', hg, h1, by omega, h3, h4, h5, h6⟩
          · exact .inr ⟨he2, hb1, by omega⟩

theorem ReachSt_step (input : List Nat) {cs M : Int} {start : Nat} (hcs : 1 ≤ cs)
    (hstart : start ≤ input.length)
    {ems : List (List Nat × Int × Option Err)} {s' : Scanner}
    (hR : ReachSt input cs M start ems s') :
    ∃ l p er s2, LineBytes (exactReader input) s' = .ok (l, p, er, s2) ∧
      s2.pos ≤ s'.pos ∧ ReachSt input cs M start (ems ++ [(l, p, er)]) s2 := by
  rcases hR with ⟨⟨er, herr⟩, hp0, hps⟩ | ⟨herr, c, e, hce, hestart, hs, hpairs⟩
  · exact ⟨[], 0, some er, s', LineBytes_latched _ _ herr, le_refl _,
      .inl ⟨⟨er, herr⟩, hp0, hps⟩⟩
  · subst hs
    have he : e ≤ input.length := le_trans hestart hstart
    have hLB : LineBytes (exactReader input) (mkSt input cs M c e none) =
        lineBytesLoop (exactReader input) (c + 1) (mkSt input cs M c e none) := by
      simp [LineBytes, mkSt]
    obtain ⟨l, p, er, s2, hloop, hdisj⟩ := loop_general input hcs (c + 1) c e hce he (by omega)
    rcases hdisj with ⟨j, c', hg, hcj, hcc, hl, hpe, her, hs2⟩ | ⟨⟨er2, herr2⟩, hb1, hb2⟩
    · have hjlt : j < e := by
        have h3 := lastNl_lt hg
        have h4 : (input.take e).length ≤ e := by simp [List.length_take]
        omega
      subst hl
      subst hpe
      subst her
      subst hs2
      refine ⟨_, _, _, _, by rw [hLB]; exact hloop, ?_, ?_⟩
      · show ((c' : Nat) : Int) ≤ ((c : Nat) : Int)
        omega
      · right
        have hjs : j ≤ start := by omega
        refine ⟨rfl, c', j, hcj, hjs, rfl, ?_⟩
        rw [hpairs, pairsOf_step hg, take_drop_slice, take_take_self input (by omega)]
        rw [List.map_append]
        rw [List.append_assoc]
        rfl
    · refine ⟨l, p, er, s2, by rw [hLB]; exact hloop, ?_, ?_⟩
      · show s2.pos ≤ ((c : Nat) : Int)
        exact hb2
      · refine .inl ⟨⟨er2, herr2⟩, hb1, ?_⟩
        show s2.pos ≤ ((start : Nat) : Int)
        omega

theorem runCalls_reach (input : List Nat) {cs M : Int} {start : Nat} (hcs : 1 ≤ cs)
    (hstart : start ≤ input.length) :
    ∀ k, ∃ ems s', runCalls (exactReader input) k (mkSt input cs M start start none) =
        .ok (ems, s') ∧ ReachSt input cs M start ems s' := by
  intro k
  induction k with
  | zero =>
    refine ⟨[], mkSt input cs M start start none, rfl, .inr ⟨rfl, start, start, le_refl _,
      le_refl _, rfl, by simp⟩⟩
  | succ k ih =>
    obtain ⟨ems, s', hrun, hR⟩ := ih
    obtain ⟨l, p, er, s2, hLB, hpos, hR2⟩ := ReachSt_step input hcs hstart hR
    refine ⟨ems ++ [(l, p, er)], s2, ?_, hR2⟩
    rw [runCalls_snoc, hrun]
    show (match LineBytes (exactReader input) s' with
      | Except.error a => Except.error a
      | Except.ok (l, p, er, s2) => Except.ok (ems ++ [(l, p, er)], s2)) = _
    rw [hLB]

/-- C9: between any two public fetch calls of a scanner with validated options
started at `start ≤ input.length` — any maximum buffer size, binding or not —
the cursor stays in `[0, start]` and is non-increasing from call to call; and
every reachable non-terminal state is `mkSt c e`: the buffer is exactly the
contiguous source region from the cursor `c` up to the least never-returned
offset `e`, the pairs emitted so far being exactly those that `pairsOf`
ascribes to the region `[e, start)`. -/
theorem c9_invariant (input : List Nat) (cs M : Int) (start k : Nat)
    (hcs : 0 < cs) (hM0 : 0 < M) (hstart : start ≤ input.length) :
    ∃ ems s', runCalls (exactReader input) k
        (NewOptions (start : Int) (some { chunkSize := cs, maxBufferSize := M })) =
        .ok (ems, s') ∧
      0 ≤ s'.pos ∧ s'.pos ≤ (start : Int) ∧
      (∀ ems2 s2, runCalls (exactReader input) (k + 1)
          (NewOptions (start : Int) (some { chunkSize := cs, maxBufferSize := M })) =
          .ok (ems2, s2) → s2.pos ≤ s'.pos) ∧
      (s'.err = none → ∃ c e, c ≤ e ∧ e ≤ start ∧ s' = mkSt input cs M c e none ∧
        pairsOf (input.take start) =
          ems.map (fun t => (t.1, t.2.1)) ++ pairsOf (input.take e)) := by
  rw [NewOptions_eq_mkSt input hcs hM0 start]
  have hcs1 : (1 : Int) ≤ cs := by omega
  obtain ⟨ems, s', hrun, hR⟩ := runCalls_reach input hcs1 hstart k
  obtain ⟨l, p, er, s2, hLB, hpos, hR2⟩ := ReachSt_step input hcs1 hstart hR
  refine ⟨ems, s', hrun, ?_, ?_, ?_, ?_⟩
  · rcases hR with ⟨_, hp0, _⟩ | ⟨_, c, e, _, _, hs, _⟩
    · exact hp0
    · subst hs
      exact Int.ofNat_nonneg c
  · rcases hR with ⟨_, _, hps⟩ | ⟨_, c, e, hce, hes, hs, _⟩
    · exact hps
    · subst hs
      show ((c : Nat) : Int) ≤ ((start : Nat) : Int)
      omega
  · intro ems2 s2' hrun2
    rw [runCalls_snoc, hrun] at hrun2
    have hval : (match LineBytes (exactReader input) s' with
        | Except.error a => Except.error a
        | Except.ok (l, p, er, s2) => Except.ok (ems ++ [(l, p, er)], s2)) =
        Except.ok (ems2, s2') := hrun2
    rw [hLB] at hval
    simp only [Except.ok.injEq, Prod.mk.injEq] at hval
    rw [← hval.2]
    exact hpos
  · intro hnone
    rcases hR with ⟨⟨er2, herr⟩, _, _⟩ | ⟨_, c, e, hce, hes, hs, hpairs⟩
    · rw [hnone] at herr
      exact absurd herr (by simp)
    · exact ⟨c, e, hce, hes, hs, hpairs⟩

/-- C9, witness: the invariant after one call on the input `"ab\ncd"` started
at its full length 5 with chunk size 1 and the binding cap 3 (smaller than the
input), the configuration in which the cap does constrain the scan. -/
theorem c9_invariant_witness :
    (0 : Int) < 1 ∧ (0 : Int) < 3 ∧ (5 ≤ ([97, 98, 10, 99, 100] : List Nat).length) ∧
    (∃ ems s', runCalls (exactReader [97, 98, 10, 99, 100]) 1
        (NewOptions ((5 : Nat) : Int) (some { chunkSize := 1, maxBufferSize := 3 })) =
        .ok (ems, s') ∧
      0 ≤ s'.pos ∧ s'.pos ≤ ((5 : Nat) : Int) ∧
      (∀ ems2 s2, runCalls (exactReader [97, 98, 10, 99, 100]) (1 + 1)
          (NewOptions ((5 : Nat) : Int) (some { chunkSize := 1, maxBufferSize := 3 })) =
          .ok (ems2, s2) → s2.pos ≤ s'.pos) ∧
      (s'.err = none → ∃ c e, c ≤ e ∧ e ≤ 5 ∧ s' = mkSt [97, 98, 10, 99, 100] 1 3 c e none ∧
        pairsOf (([97, 98, 10, 99, 100] : List Nat).take 5) =
          ems.map (fun t => (t.1, t.2.1)) ++
            pairsOf (([97, 98, 10, 99, 100] : List Nat).take e))) :=
  ⟨by decide, by decide, by decide,
    c9_invariant [97, 98, 10, 99, 100] 1 3 5 1 (by decide) (by decide) (by decide)⟩


/-! ## C10 -/

theorem readMore_general_aux (input : List Nat) (s : Scanner) {sz : Int}
    (hif : (if s.chunkSize > s.pos then s.pos else s.chunkSize) = sz)
    (hpos : ¬s.pos = 0) (hsz1 : 1 ≤ sz) (hszp : sz ≤ s.pos) :
    ∃ s2, readMore (exactReader input) s = .ok s2 ∧ s2.pos = s.pos - sz ∧
      s2.chunkSize = s.chunkSize := by
  simp only [readMore, exactReader]
  rw [hif, if_neg hpos]
  by_cases hbig : sz + (s.buf.length : Int) > s.maxBufferSize
  · rw [if_pos hbig]
    exact ⟨_, rfl, rfl, rfl⟩
  · rw [if_neg hbig, if_neg (show ¬(sz < 0) by omega),
      if_neg (show ¬(s.pos - sz < 0) by omega)]
    by_cases hoff : (input.length : Int) ≤ s.pos - sz
    · rw [if_pos hoff]
      rw [if_neg (show ¬(({ data := [], err := some Err.eof } : ReadResult).err = some Err.eof ∧
          ({ data := [], err := some Err.eof } : ReadResult).data.length = sz.toNat) by
        simp
        omega)]
      exact ⟨_, rfl, rfl, rfl⟩
    · rw [if_neg hoff]
      generalize (input.drop (s.pos - sz).toNat).take sz.toNat = D
      by_cases hfull : D.length = sz.toNat
      · rw [if_pos hfull]
        rw [if_neg (show ¬(({ data := D, err := none } : ReadResult).err = some Err.eof ∧ ({ data := D, err := none } : ReadResult).data.length = sz.toNat) by simp)]
        exact ⟨_, rfl, rfl, rfl⟩
      · rw [if_neg hfull]
        rw [if_neg (show ¬(({ data := D, err := some Err.eof } : ReadResult).err = some Err.eof ∧ ({ data := D, err := some Err.eof } : ReadResult).data.length = sz.toNat) from fun h => hfull h.2)]
        exact ⟨_, rfl, rfl, rfl⟩

theorem readMore_general (input : List Nat) (s : Scanner) (hpos : 0 < s.pos)
    (hcs : 1 ≤ s.chunkSize) :
    ∃ s2, readMore (exactReader input) s = .ok s2 ∧ 0 ≤ s2.pos ∧ s2.pos < s.pos ∧
      s2.chunkSize = s.chunkSize := by
  by_cases hcase : s.chunkSize > s.pos
  · obtain ⟨s2, h1, h2, h3⟩ :=
      readMore_general_aux input s (if_pos hcase) (by omega) (by omega) (le_refl _)
    exact ⟨s2, h1, by omega, by omega, h3⟩
  · obtain ⟨s2, h1, h2, h3⟩ :=
      readMore_general_aux input s (if_neg hcase) (by omega) hcs (by omega)
    exact ⟨s2, h1, by omega, by omega, h3⟩

theorem safe_loop (input : List Nat) :
    ∀ fuel (s : Scanner), 1 ≤ s.chunkSize → 0 ≤ s.pos → s.pos.toNat < fuel →
      ∃ l p er s2, lineBytesLoop (exactReader input) fuel s = .ok (l, p, er, s2) ∧
        0 ≤ s2.pos ∧ s2.chunkSize = s.chunkSize := by
  intro fuel
  induction fuel with
  | zero => intro s _ _ h; exact absurd h (Nat.not_lt_zero _)
  | succ fuel ih =>
    intro s hcs hp hf
    simp only [lineBytesLoop]
    by_cases hls : 0 ≤ lastIndexByte s.buf 10
    · rw [if_pos hls]
      exact ⟨_, _, _, _, rfl, hp, rfl⟩
    · rw [if_neg hls]
      by_cases hp0 : s.pos = 0
      · rw [readMore_pos_zero _ _ hp0]
        by_cases hb : 0 < s.buf.length
        · refine ⟨dropCR s.buf, 0, none, { s with err := some Err.eof }, ?_, hp, rfl⟩
          simp [hb]
        · refine ⟨[], 0, some .eof, { s with err := some Err.eof }, ?_, hp, rfl⟩
          simp [hb]
      · obtain ⟨s2, hrm, h0, hlt, hcseq⟩ := readMore_general input s (by omega) hcs
        rw [hrm]
        cases herr : s2.err with
        | some er =>
          by_cases hb : er = Err.eof ∧ 0 < s2.buf.length
          · refine ⟨dropCR s2.buf, 0, none, s2, ?_, h0, hcseq⟩
            simp [herr, hb.1, hb.2]
          · refine ⟨[], 0, some er, s2, ?_, h0, hcseq⟩
            simp only [herr]
            rw [if_neg hb]
        | none =>
          obtain ⟨l, p, er, s3, hloop, h02, hcs3⟩ := ih s2 (by rw [hcseq]; exact hcs) h0
            (by omega)
          refine ⟨l, p, er, s3, ?_, h02, by rw [hcs3, hcseq]⟩
          simp only [herr]
          exact hloop

theorem safe_calls (input : List Nat) :
    ∀ k (s : Scanner), 1 ≤ s.chunkSize → 0 ≤ s.pos →
      ∃ ems s2, runCalls (exactReader input) k s = .ok (ems, s2) ∧ 0 ≤ s2.pos ∧
        s2.chunkSize = s.chunkSize := by
  intro k
  induction k with
  | zero => intro s _ hp; exact ⟨[], s, rfl, hp, rfl⟩
  | succ k ih =>
    intro s hcs hp
    cases herr : s.err with
    | some er =>
      have hLB := LineBytes_latched (exactReader input) s herr
      obtain ⟨ems, s2, hrun, h0, hcs2⟩ := ih s hcs hp
      refine ⟨([], 0, some er) :: ems, s2, ?_, h0, hcs2⟩
      simp only [runCalls, hLB, hrun]
    | none =>
      obtain ⟨l, p, er, s2, hloop, h0, hcs2⟩ :=
        safe_loop input (s.pos.toNat + 1) s hcs hp (by omega)
      have hLB : LineBytes (exactReader input) s = .ok (l, p, er, s2) := by
        simp only [LineBytes, herr]
        exact hloop
      obtain ⟨ems, s3, hrun, h03, hcs3⟩ := ih s2 (by rw [hcs2]; exact hcs) h0
      refine ⟨(l, p, er) :: ems, s3, ?_, h03, by rw [hcs3, hcs2]⟩
      simp only [runCalls, hLB, hrun]

/-- C10: a scanner constructed with a non-negative starting offset never
reaches an abort of the model over any sequence of fetch calls — the cursor
stays non-negative, the fetch size non-negative, and every buffer index in
bounds, so neither the slice-bounds branch nor fuel exhaustion is reachable;
with a negative starting offset the very first fetch reaches the negative
reslice of the scratch buffer (a slice-bounds panic in Go). -/
theorem c10_safety :
    (∀ (input : List Nat) (o : Option Options) (start : Int) (k : Nat), 0 ≤ start →
      ∃ ems s2, runCalls (exactReader input) k (NewOptions start o) = .ok (ems, s2)) ∧
    runCalls (exactReader [97]) 1 (New (-1)) = .error .sliceBounds := by
  constructor
  · intro input o start k hstart
    have hcs : 1 ≤ (NewOptions start o).chunkSize := by
      cases o with
      | none =>
        show (1 : Int) ≤ DefaultChunkSize
        decide
      | some oo =>
        show (1 : Int) ≤ (if 0 < oo.chunkSize then oo.chunkSize else DefaultChunkSize)
        by_cases h : 0 < oo.chunkSize
        · rw [if_pos h]
          omega
        · rw [if_neg h]
          decide
    have hp : 0 ≤ (NewOptions start o).pos := hstart
    obtain ⟨ems, s2, h, _, _⟩ := safe_calls input k (NewOptions start o) hcs hp
    exact ⟨ems, s2, h⟩
  · decide

/-- C10, witness: three fetch calls over `"a\n"` started at offset 2 with
default options complete without reaching any abort branch. -/
theorem c10_safety_witness :
    (0 : Int) ≤ 2 ∧
    (∃ ems s2, runCalls (exactReader [97, 10]) 3 (NewOptions 2 none) = .ok (ems, s2)) :=
  ⟨by decide, c10_safety.1 [97, 10] none 2 3 (by decide)⟩

end Backscanner
